import Mathlib

/-!
# Verification of the trend-analysis core (`trends/analyze.py`)

A shallow embedding of the keyword extractor and the six analyzers of
`analyze.py`, together with proofs of the behavioural claims made by the
specification.  Python floats are modelled as rationals (`ℚ`), Python's
`round(x, n)` as round-half-even on rationals, text as `String`/`List Char`
restricted to the ASCII behaviour of `str.lower`, `\w` and `\s`, and Python
sets of keywords as duplicate-free lists produced by `List.dedup`.
-/

/-- Floor of a rational, computed by floor-division of the numerator by the
(positive) denominator so that the kernel can evaluate it. -/
def ratFloor (q : ℚ) : ℤ := q.num.fdiv q.den

/-- Round-half-even on rationals: the integer nearest to `q`, ties going to
the even integer.  Models Python's banker rounding of `round`. -/
def roundHalfEven (q : ℚ) : ℤ :=
  if q - ratFloor q < 1/2 then ratFloor q
  else if 1/2 < q - ratFloor q then ratFloor q + 1
  else if ratFloor q % 2 = 0 then ratFloor q else ratFloor q + 1

/-- Python's `round(q, ndigits)` on rationals. -/
def pyRound (ndigits : ℕ) (q : ℚ) : ℚ :=
  (roundHalfEven (q * 10 ^ ndigits) : ℚ) / 10 ^ ndigits

theorem ratFloor_intCast (n : ℤ) : ratFloor (n : ℚ) = n := by
  simp [ratFloor, Rat.num_intCast, Rat.den_intCast]

theorem ratFloor_nonneg {q : ℚ} (h : 0 ≤ q) : 0 ≤ ratFloor q := by
  exact Int.fdiv_nonneg (Rat.num_nonneg.mpr h) (by positivity)

theorem roundHalfEven_intCast (n : ℤ) : roundHalfEven (n : ℚ) = n := by
  unfold roundHalfEven
  rw [ratFloor_intCast]
  simp

theorem roundHalfEven_nonneg {q : ℚ} (h : 0 ≤ q) : 0 ≤ roundHalfEven q := by
  unfold roundHalfEven
  have hf : (0 : ℤ) ≤ ratFloor q := ratFloor_nonneg h
  split
  · exact hf
  · split
    · omega
    · split
      · exact hf
      · omega

theorem pyRound_nonneg {q : ℚ} (n : ℕ) (h : 0 ≤ q) : 0 ≤ pyRound n q := by
  unfold pyRound
  apply div_nonneg
  · exact_mod_cast roundHalfEven_nonneg (by positivity)
  · positivity

theorem pyRound_natCast (d : ℕ) (n : ℕ) : pyRound d (n : ℚ) = n := by
  unfold pyRound
  have h1 : ((n : ℚ) * 10 ^ d) = ((n * 10 ^ d : ℕ) : ℚ) := by push_cast; ring
  rw [h1]
  have h2 : (((n * 10 ^ d : ℕ) : ℤ) : ℚ) = ((n * 10 ^ d : ℕ) : ℚ) := by push_cast; ring
  rw [show ((n * 10 ^ d : ℕ) : ℚ) = (((n * 10 ^ d : ℕ) : ℤ) : ℚ) from h2.symm,
    roundHalfEven_intCast]
  have h10 : ((10 : ℚ) ^ d) ≠ 0 := by positivity
  push_cast
  field_simp

/-! ## Text normalization (`_normalize`) and keyword extraction

`_normalize` lowercases, strips surrounding whitespace, replaces every
character that is neither a word character (`\w`: alphanumeric or `_`) nor
whitespace (`\s`) by a space, and collapses whitespace runs to single
spaces.  We model the ASCII behaviour of Python's `str.lower`, `\w`, `\s`
and `str.strip`. -/

/-- ASCII whitespace, Python's `\s`: space, tab, newline, carriage return,
vertical tab and form feed. -/
def isWs (c : Char) : Bool :=
  c = ' ' || c = '\t' || c = '\n' || c = '\r' || c = '\x0b' || c = '\x0c'

/-- A regex `\w` word character (ASCII): letter, digit or underscore. -/
def isWordChar (c : Char) : Bool :=
  c.isAlphanum || c = '_'

def upperAZ : List Char :=
  ['A', 'B', 'C', 'D', 'E', 'F', 'G', 'H', 'I', 'J', 'K', 'L', 'M',
   'N', 'O', 'P', 'Q', 'R', 'S', 'T', 'U', 'V', 'W', 'X', 'Y', 'Z']

def lowerAZ : List Char :=
  ['a', 'b', 'c', 'd', 'e', 'f', 'g', 'h', 'i', 'j', 'k', 'l', 'm',
   'n', 'o', 'p', 'q', 'r', 's', 't', 'u', 'v', 'w', 'x', 'y', 'z']

/-- ASCII lower-casing of one character, as performed by `str.lower`. -/
def pyLower (c : Char) : Char :=
  if c = 'A' then 'a' else if c = 'B' then 'b' else if c = 'C' then 'c'
  else if c = 'D' then 'd' else if c = 'E' then 'e' else if c = 'F' then 'f'
  else if c = 'G' then 'g' else if c = 'H' then 'h' else if c = 'I' then 'i'
  else if c = 'J' then 'j' else if c = 'K' then 'k' else if c = 'L' then 'l'
  else if c = 'M' then 'm' else if c = 'N' then 'n' else if c = 'O' then 'o'
  else if c = 'P' then 'p' else if c = 'Q' then 'q' else if c = 'R' then 'r'
  else if c = 'S' then 's' else if c = 'T' then 't' else if c = 'U' then 'u'
  else if c = 'V' then 'v' else if c = 'W' then 'w' else if c = 'X' then 'x'
  else if c = 'Y' then 'y' else if c = 'Z' then 'z' else c

theorem pyLower_eq_self (c : Char) (hc : c ∉ upperAZ) : pyLower c = c := by
  have h : ∀ d, d ∈ upperAZ → ¬ c = d := fun d hd he => hc (he ▸ hd)
  unfold pyLower
  rw [if_neg (h 'A' (by decide)), if_neg (h 'B' (by decide)),
    if_neg (h 'C' (by decide)), if_neg (h 'D' (by decide)),
    if_neg (h 'E' (by decide)), if_neg (h 'F' (by decide)),
    if_neg (h 'G' (by decide)), if_neg (h 'H' (by decide)),
    if_neg (h 'I' (by decide)), if_neg (h 'J' (by decide)),
    if_neg (h 'K' (by decide)), if_neg (h 'L' (by decide)),
    if_neg (h 'M' (by decide)), if_neg (h 'N' (by decide)),
    if_neg (h 'O' (by decide)), if_neg (h 'P' (by decide)),
    if_neg (h 'Q' (by decide)), if_neg (h 'R' (by decide)),
    if_neg (h 'S' (by decide)), if_neg (h 'T' (by decide)),
    if_neg (h 'U' (by decide)), if_neg (h 'V' (by decide)),
    if_neg (h 'W' (by decide)), if_neg (h 'X' (by decide)),
    if_neg (h 'Y' (by decide)), if_neg (h 'Z' (by decide))]

theorem pyLower_mem_lowerAZ (c : Char) (hc : c ∈ upperAZ) : pyLower c ∈ lowerAZ := by
  fin_cases hc <;> decide

theorem pyLower_spec (c : Char) :
    pyLower c = c ∨ (c ∈ upperAZ ∧ pyLower c ∈ lowerAZ) := by
  by_cases hc : c ∈ upperAZ
  · exact Or.inr ⟨hc, pyLower_mem_lowerAZ c hc⟩
  · exact Or.inl (pyLower_eq_self c hc)

theorem pyLower_lowerAZ : ∀ d ∈ lowerAZ, pyLower d = d := by decide

theorem pyLower_idem (c : Char) : pyLower (pyLower c) = pyLower c := by
  rcases pyLower_spec c with h | ⟨_, h⟩
  · rw [h]; exact h
  · exact pyLower_lowerAZ _ h

theorem isWs_pyLower (c : Char) : isWs (pyLower c) = isWs c := by
  rcases pyLower_spec c with h | ⟨h1, h2⟩
  · rw [h]
  · have hu : ∀ d ∈ upperAZ, isWs d = false := by decide
    have hl : ∀ d ∈ lowerAZ, isWs d = false := by decide
    rw [hu c h1, hl _ h2]

theorem isWordChar_pyLower (c : Char) : isWordChar (pyLower c) = isWordChar c := by
  rcases pyLower_spec c with h | ⟨h1, h2⟩
  · rw [h]
  · have hu : ∀ d ∈ upperAZ, isWordChar d = true := by decide
    have hl : ∀ d ∈ lowerAZ, isWordChar d = true := by decide
    rw [hu c h1, hl _ h2]

theorem isWs_cases (c : Char) (h : isWs c = true) :
    c = ' ' ∨ c = '\t' ∨ c = '\n' ∨ c = '\r' ∨ c = '\x0b' ∨ c = '\x0c' := by
  have h2 := h
  simp only [isWs, Bool.or_eq_true, decide_eq_true_eq] at h2
  tauto

theorem isWordChar_of_ws (c : Char) (h : isWs c = true) : isWordChar c = false := by
  rcases isWs_cases c h with h | h | h | h | h | h <;> subst h <;> decide

theorem pyLower_of_ws (c : Char) (h : isWs c = true) : pyLower c = c := by
  rcases isWs_cases c h with h | h | h | h | h | h <;> subst h <;> decide

/-- One character of `re.sub(r"[^\w\s]", " ", text)`: anything that is
neither a word character nor whitespace becomes a space. -/
def subChar (c : Char) : Char :=
  if !isWordChar c && !isWs c then ' ' else c

def subPunct (s : List Char) : List Char := s.map subChar

/-- Separator characters for tokenization purposes: everything that is not
a word character (whitespace included). -/
def sep (c : Char) : Bool := !isWordChar c || isWs c

theorem isWs_subChar (c : Char) : isWs (subChar c) = sep c := by
  cases hw : isWordChar c <;> cases hs : isWs c <;>
    simp [subChar, sep, hw, hs] <;> decide

theorem sep_subChar (c : Char) : sep (subChar c) = sep c := by
  cases hw : isWordChar c <;> cases hs : isWs c <;>
    simp [subChar, sep, hw, hs] <;> decide

theorem subChar_of_word (c : Char) (h : isWordChar c = true) : subChar c = c := by
  simp [subChar, h]

theorem subChar_of_ws (c : Char) (h : isWs c = true) : subChar c = c := by
  simp [subChar, h]

theorem subChar_eq_self_of_not_isWs (c : Char) (h : isWs (subChar c) = false) :
    subChar c = c := by
  by_cases hc : (!isWordChar c && !isWs c) = true
  · have hs : subChar c = ' ' := by rw [subChar, if_pos hc]
    rw [hs] at h
    exact absurd h (by decide)
  · rw [subChar, if_neg hc]

theorem subChar_eq_self_of_not_sep (c : Char) (h : sep (subChar c) = false) :
    subChar c = c := by
  apply subChar_eq_self_of_not_isWs
  rw [isWs_subChar, ← sep_subChar c, h]

theorem subChar_pyLower (c : Char) : subChar (pyLower c) = pyLower (subChar c) := by
  rcases pyLower_spec c with h | ⟨h1, h2⟩
  · rw [h]
    by_cases hc : (!isWordChar c && !isWs c) = true
    · rw [subChar, if_pos hc]
      decide
    · rw [subChar, if_neg hc]
      exact h.symm
  · have hu : ∀ d ∈ upperAZ, isWordChar d = true := by decide
    have hl : ∀ d ∈ lowerAZ, isWordChar d = true := by decide
    rw [subChar_of_word _ (hl _ h2), subChar_of_word _ (hu _ h1)]

/-- Python's `str.strip()`: remove leading and trailing whitespace. -/
def stripChars (s : List Char) : List Char :=
  ((s.dropWhile isWs).reverse.dropWhile isWs).reverse

/-- `re.sub(r"\s+", " ", text)`: replace every maximal whitespace run by a
single space. -/
def collapseWs : List Char → List Char
  | [] => []
  | c :: cs =>
    if isWs c then ' ' :: collapseWs (cs.dropWhile isWs)
    else c :: collapseWs cs
termination_by s => s.length
decreasing_by
  · have := (List.dropWhile_sublist (l := cs) isWs).length_le
    simp
    omega
  · simp

/-- Tokens of a character list: the maximal runs of characters on which the
separator predicate `p` is false, in order.  With `p := isWs` this is
Python's `str.split()`. -/
def splitW (p : Char → Bool) : List Char → List (List Char)
  | [] => []
  | c :: cs =>
    if p c then splitW p cs
    else (c :: cs.takeWhile (fun d => !p d)) :: splitW p (cs.dropWhile (fun d => !p d))
termination_by s => s.length
decreasing_by
  · simp
  · have := (List.dropWhile_sublist (l := cs) (fun d => !p d)).length_le
    simp
    omega

/-- Python's `str.split()` (no separator argument). -/
def words (s : List Char) : List (List Char) := splitW isWs s

/-- `_normalize` on character lists: lowercase, strip, replace non-word
non-space characters by spaces, collapse whitespace runs. -/
def pyNormalizeL (s : List Char) : List Char :=
  collapseWs (subPunct (stripChars (s.map pyLower)))

theorem splitW_cons_pos (p : Char → Bool) (c : Char) (cs : List Char)
    (h : p c = true) : splitW p (c :: cs) = splitW p cs := by
  rw [splitW, if_pos h]

theorem splitW_cons_neg (p : Char → Bool) (c : Char) (cs : List Char)
    (h : p c = false) :
    splitW p (c :: cs) =
      (c :: cs.takeWhile (fun d => !p d)) ::
        splitW p (cs.dropWhile (fun d => !p d)) := by
  rw [splitW, if_neg (by simp [h])]

theorem splitW_nil (p : Char → Bool) : splitW p [] = [] := by
  simp [splitW]

theorem splitW_all_sep (p : Char → Bool) :
    ∀ s : List Char, (∀ c ∈ s, p c = true) → splitW p s = []
  | [], _ => splitW_nil p
  | c :: cs, h => by
    rw [splitW_cons_pos p c cs (h c (List.mem_cons_self c cs))]
    exact splitW_all_sep p cs fun d hd => h d (List.mem_cons_of_mem c hd)

theorem splitW_dropWhile (p q : Char → Bool) (himp : ∀ c, q c = true → p c = true) :
    ∀ s : List Char, splitW p (s.dropWhile q) = splitW p s
  | [] => rfl
  | c :: cs => by
    cases hq : q c with
    | true =>
      rw [List.dropWhile_cons_of_pos hq, splitW_dropWhile p q himp cs,
        splitW_cons_pos p c cs (himp c hq)]
    | false =>
      rw [List.dropWhile_cons_of_neg (by simp [hq])]

theorem dropWhile_head_false (q : Char → Bool) :
    ∀ (cs : List Char) (d : Char) (rs : List Char),
      cs.dropWhile q = d :: rs → q d = false
  | [], d, rs, h => by simp at h
  | x :: xs, d, rs, h => by
    cases hq : q x with
    | true =>
      rw [List.dropWhile_cons_of_pos hq] at h
      exact dropWhile_head_false q xs d rs h
    | false =>
      rw [List.dropWhile_cons_of_neg (by simp [hq])] at h
      cases h
      exact hq

theorem takeWhile_all_sep (p : Char → Bool) (t : List Char)
    (ht : ∀ c ∈ t, p c = true) : t.takeWhile (fun d => !p d) = [] := by
  cases t with
  | nil => rfl
  | cons d ds =>
    exact List.takeWhile_cons_of_neg (by simp [ht d (List.mem_cons_self d ds)])

theorem dropWhile_all_sep_self (p : Char → Bool) (t : List Char)
    (ht : ∀ c ∈ t, p c = true) : t.dropWhile (fun d => !p d) = t := by
  cases t with
  | nil => rfl
  | cons d ds =>
    exact List.dropWhile_cons_of_neg (by simp [ht d (List.mem_cons_self d ds)])

theorem splitW_append_sep (p : Char → Bool) (t : List Char)
    (ht : ∀ c ∈ t, p c = true) :
    ∀ s : List Char, splitW p (s ++ t) = splitW p s := by
  have H : ∀ (n : ℕ) (s : List Char), s.length ≤ n →
      splitW p (s ++ t) = splitW p s := by
    intro n
    induction n with
    | zero =>
      intro s hs
      have : s = [] := List.length_eq_zero.mp (Nat.le_zero.mp hs)
      subst this
      rw [List.nil_append, splitW_nil, splitW_all_sep p t ht]
    | succ n ih =>
      intro s hs
      cases s with
      | nil => rw [List.nil_append, splitW_nil, splitW_all_sep p t ht]
      | cons c cs =>
        cases hc : p c with
        | true =>
          rw [List.cons_append, splitW_cons_pos p c _ hc, splitW_cons_pos p c cs hc]
          exact ih cs (by simp at hs; omega)
        | false =>
          rw [List.cons_append, splitW_cons_neg p c _ hc, splitW_cons_neg p c cs hc]
          have htake : (cs ++ t).takeWhile (fun d => !p d) =
              cs.takeWhile (fun d => !p d) := by
            rw [List.takeWhile_append]
            split
            · rename_i hlen
              have hcs : cs.takeWhile (fun d => !p d) = cs :=
                (List.takeWhile_sublist _).eq_of_length hlen
              rw [takeWhile_all_sep p t ht, List.append_nil, hcs]
            · rfl
          have hdrop : splitW p ((cs ++ t).dropWhile (fun d => !p d)) =
              splitW p (cs.dropWhile (fun d => !p d)) := by
            rw [List.dropWhile_append]
            split
            · rename_i hemp
              rw [List.isEmpty_iff.mp hemp, splitW_nil,
                dropWhile_all_sep_self p t ht, splitW_all_sep p t ht]
            · rename_i hemp
              have hlen : (cs.dropWhile (fun d => !p d)).length ≤ n := by
                have h1 := (List.dropWhile_sublist (l := cs) (fun d => !p d)).length_le
                have h2 : cs.length ≤ n := by simp at hs; omega
                omega
              exact ih _ hlen
          rw [htake, hdrop]
  exact fun s => H s.length s le_rfl

theorem splitW_map (p : Char → Bool) (f : Char → Char)
    (hid : ∀ c, p (f c) = false → f c = c) :
    ∀ s : List Char, splitW p (s.map f) = splitW (fun c => p (f c)) s := by
  have H : ∀ (n : ℕ) (s : List Char), s.length ≤ n →
      splitW p (s.map f) = splitW (fun c => p (f c)) s := by
    intro n
    induction n with
    | zero =>
      intro s hs
      have : s = [] := List.length_eq_zero.mp (Nat.le_zero.mp hs)
      subst this
      rw [List.map_nil, splitW_nil, splitW_nil]
    | succ n ih =>
      intro s hs
      cases s with
      | nil => rw [List.map_nil, splitW_nil, splitW_nil]
      | cons c cs =>
        have hlen : cs.length ≤ n := by simp at hs; omega
        cases hc : p (f c) with
        | true =>
          rw [List.map_cons, splitW_cons_pos p (f c) _ hc,
            splitW_cons_pos _ c cs hc, ih cs hlen]
        | false =>
          rw [List.map_cons, splitW_cons_neg p (f c) _ hc,
            splitW_cons_neg _ c cs hc, hid c hc]
          have htake : (cs.map f).takeWhile (fun d => !p d) =
              cs.takeWhile (fun d => !p (f d)) := by
            rw [List.takeWhile_map]
            have hmap : ∀ a ∈ cs.takeWhile ((fun d => !p d) ∘ f), f a = a := by
              intro a ha
              have h2 := List.mem_takeWhile_imp ha
              exact hid a (by simpa [Function.comp] using h2)
            exact (List.map_congr_left hmap).trans (List.map_id' _)
          have hdrop : (cs.map f).dropWhile (fun d => !p d) =
              (cs.dropWhile (fun d => !p (f d))).map f := by
            rw [List.dropWhile_map]
            rfl
          have hlen2 : (cs.dropWhile (fun d => !p (f d))).length ≤ n := by
            have := (List.dropWhile_sublist (l := cs) (fun d => !p (f d))).length_le
            omega
          rw [htake, hdrop, ih _ hlen2]
  exact fun s => H s.length s le_rfl

theorem collapseWs_nil : collapseWs [] = [] := by simp [collapseWs]

theorem collapseWs_cons_ws (c : Char) (cs : List Char) (h : isWs c = true) :
    collapseWs (c :: cs) = ' ' :: collapseWs (cs.dropWhile isWs) := by
  rw [collapseWs, if_pos h]

theorem collapseWs_cons_not_ws (c : Char) (cs : List Char) (h : isWs c = false) :
    collapseWs (c :: cs) = c :: collapseWs cs := by
  rw [collapseWs, if_neg (by simp [h])]

theorem collapseWs_append (t r : List Char) (h : ∀ x ∈ t, isWs x = false) :
    collapseWs (t ++ r) = t ++ collapseWs r := by
  induction t with
  | nil => rfl
  | cons x xs ih =>
    rw [List.cons_append,
      collapseWs_cons_not_ws x _ (h x (List.mem_cons_self x xs)),
      ih (fun y hy => h y (List.mem_cons_of_mem x hy)), List.cons_append]

theorem collapseWs_head_sep (p : Char → Bool) (hws : ∀ c, isWs c = true → p c = true)
    (d : Char) (rs : List Char) (hd : p d = true) :
    ∃ h2 hs2, collapseWs (d :: rs) = h2 :: hs2 ∧ p h2 = true := by
  cases hs : isWs d with
  | true =>
    refine ⟨' ', _, collapseWs_cons_ws d rs hs, hws ' ' (by decide)⟩
  | false =>
    refine ⟨d, _, collapseWs_cons_not_ws d rs hs, hd⟩

theorem splitW_collapseWs (p : Char → Bool) (hws : ∀ c, isWs c = true → p c = true) :
    ∀ s : List Char, splitW p (collapseWs s) = splitW p s := by
  have H : ∀ (n : ℕ) (s : List Char), s.length ≤ n →
      splitW p (collapseWs s) = splitW p s := by
    intro n
    induction n with
    | zero =>
      intro s hs
      have : s = [] := List.length_eq_zero.mp (Nat.le_zero.mp hs)
      subst this
      rw [collapseWs_nil]
    | succ n ih =>
      intro s hs
      cases s with
      | nil => rw [collapseWs_nil]
      | cons c cs =>
        have hlen : cs.length ≤ n := by simp at hs; omega
        cases hcw : isWs c with
        | true =>
          rw [collapseWs_cons_ws c cs hcw,
            splitW_cons_pos p ' ' _ (hws ' ' (by decide)),
            splitW_cons_pos p c cs (hws c hcw)]
          have hlen2 : (cs.dropWhile isWs).length ≤ n := by
            have := (List.dropWhile_sublist (l := cs) isWs).length_le
            omega
          rw [ih _ hlen2, splitW_dropWhile p isWs hws cs]
        | false =>
          rw [collapseWs_cons_not_ws c cs hcw]
          cases hc : p c with
          | true =>
            rw [splitW_cons_pos p c _ hc, splitW_cons_pos p c cs hc, ih cs hlen]
          | false =>
            rw [splitW_cons_neg p c _ hc, splitW_cons_neg p c cs hc]
            have hsep : ∀ x ∈ cs.takeWhile (fun d => !p d), isWs x = false := by
              intro x hx
              have h2 := List.mem_takeWhile_imp hx
              cases hix : isWs x with
              | true => simp [hws x hix] at h2
              | false => rfl
            have hcoll : collapseWs cs =
                cs.takeWhile (fun d => !p d) ++
                  collapseWs (cs.dropWhile (fun d => !p d)) := by
              conv_lhs => rw [← List.takeWhile_append_dropWhile (fun d => !p d) cs]
              exact collapseWs_append _ _ hsep
            have htpos : ∀ x ∈ cs.takeWhile (fun d => !p d), (fun d => !p d) x = true := by
              intro x hx
              have h3 := List.mem_takeWhile_imp hx
              simpa using h3
            rcases hr : cs.dropWhile (fun d => !p d) with _ | ⟨d, rs⟩
            · have hall : ∀ x ∈ cs, (fun d => !p d) x = true :=
                List.dropWhile_eq_nil_iff.mp hr
              have hts : cs.takeWhile (fun d => !p d) = cs :=
                List.takeWhile_eq_self_iff.mpr hall
              have hcoll2 : collapseWs cs = cs := by
                rw [hcoll, hr, collapseWs_nil, List.append_nil, hts]
              rw [hcoll2, hr]
            · have hpd : p d = true := by
                have := dropWhile_head_false (fun d => !p d) cs d rs hr
                simpa using this
              obtain ⟨h2, hs2, hceq, hp2⟩ := collapseWs_head_sep p hws d rs hpd
              have hcoll3 : collapseWs cs =
                  cs.takeWhile (fun d => !p d) ++ (h2 :: hs2) := by
                rw [hcoll, hr, hceq]
              rw [hcoll3, List.takeWhile_append_of_pos htpos,
                List.takeWhile_cons_of_neg (by simp [hp2]), List.append_nil,
                List.dropWhile_append_of_pos htpos,
                List.dropWhile_cons_of_neg (by simp [hp2]), ← hceq]
              have hlen3 : (d :: rs).length ≤ n := by
                have h4 := (List.dropWhile_sublist (l := cs) (fun d => !p d)).length_le
                rw [hr] at h4
                omega
              rw [ih _ hlen3]
  exact fun s => H s.length s le_rfl

theorem splitW_stripChars (p : Char → Bool) (hws : ∀ c, isWs c = true → p c = true)
    (s : List Char) : splitW p (stripChars s) = splitW p s := by
  unfold stripChars
  have hdecomp : s.dropWhile isWs =
      ((s.dropWhile isWs).reverse.dropWhile isWs).reverse ++
        ((s.dropWhile isWs).reverse.takeWhile isWs).reverse := by
    conv_lhs =>
      rw [← List.reverse_reverse (s.dropWhile isWs),
        ← List.takeWhile_append_dropWhile isWs (s.dropWhile isWs).reverse]
    rw [List.reverse_append]
  have hall : ∀ c ∈ ((s.dropWhile isWs).reverse.takeWhile isWs).reverse,
      p c = true := by
    intro c hc
    exact hws c (List.mem_takeWhile_imp (List.mem_reverse.mp hc))
  calc
    splitW p ((s.dropWhile isWs).reverse.dropWhile isWs).reverse
        = splitW p (((s.dropWhile isWs).reverse.dropWhile isWs).reverse ++
            ((s.dropWhile isWs).reverse.takeWhile isWs).reverse) :=
          (splitW_append_sep p _ hall _).symm
    _ = splitW p (s.dropWhile isWs) := by rw [← hdecomp]
    _ = splitW p s := splitW_dropWhile p isWs hws s

theorem sep_of_ws (c : Char) (h : isWs c = true) : sep c = true := by
  simp [sep, h]

/-- Tokenization of a normalized text: the tokens are exactly the maximal
word-character runs of the lower-cased input. -/
theorem words_pyNormalizeL (s : List Char) :
    words (pyNormalizeL s) = splitW sep (s.map pyLower) := by
  unfold words pyNormalizeL
  rw [splitW_collapseWs isWs (fun c h => h) _,
    show subPunct (stripChars (s.map pyLower)) =
      (stripChars (s.map pyLower)).map subChar from rfl,
    splitW_map isWs subChar subChar_eq_self_of_not_isWs,
    show (fun c => isWs (subChar c)) = sep from funext isWs_subChar]
  exact splitW_stripChars sep sep_of_ws _

theorem splitW_sep_pyNormalizeL (s : List Char) :
    splitW sep (pyNormalizeL s) = splitW sep (s.map pyLower) := by
  unfold pyNormalizeL
  rw [splitW_collapseWs sep sep_of_ws _,
    show subPunct (stripChars (s.map pyLower)) =
      (stripChars (s.map pyLower)).map subChar from rfl,
    splitW_map sep subChar subChar_eq_self_of_not_sep,
    show (fun c => sep (subChar c)) = sep from funext sep_subChar]
  exact splitW_stripChars sep sep_of_ws _

theorem mem_collapseWs (c : Char) :
    ∀ s : List Char, c ∈ collapseWs s → c = ' ' ∨ c ∈ s := by
  have H : ∀ (n : ℕ) (s : List Char), s.length ≤ n →
      c ∈ collapseWs s → c = ' ' ∨ c ∈ s := by
    intro n
    induction n with
    | zero =>
      intro s hs hc
      have : s = [] := List.length_eq_zero.mp (Nat.le_zero.mp hs)
      subst this
      rw [collapseWs_nil] at hc
      simp at hc
    | succ n ih =>
      intro s hs hc
      cases s with
      | nil => rw [collapseWs_nil] at hc; simp at hc
      | cons x xs =>
        have hlen : xs.length ≤ n := by simp at hs; omega
        cases hx : isWs x with
        | true =>
          rw [collapseWs_cons_ws x xs hx] at hc
          rcases List.mem_cons.mp hc with h | h
          · exact Or.inl h
          · have hlen2 : (xs.dropWhile isWs).length ≤ n := by
              have := (List.dropWhile_sublist (l := xs) isWs).length_le
              omega
            rcases ih _ hlen2 h with h2 | h2
            · exact Or.inl h2
            · exact Or.inr (List.mem_cons_of_mem x
                ((List.dropWhile_sublist isWs).subset h2))
        | false =>
          rw [collapseWs_cons_not_ws x xs hx] at hc
          rcases List.mem_cons.mp hc with h | h
          · exact Or.inr (by rw [h]; exact List.mem_cons_self x xs)
          · rcases ih xs hlen h with h2 | h2
            · exact Or.inl h2
            · exact Or.inr (List.mem_cons_of_mem x h2)
  exact fun s => H s.length s le_rfl

theorem mem_stripChars (c : Char) (s : List Char) (h : c ∈ stripChars s) : c ∈ s := by
  unfold stripChars at h
  have h1 := List.mem_reverse.mp h
  have h2 := (List.dropWhile_sublist isWs).subset h1
  have h3 := List.mem_reverse.mp h2
  exact (List.dropWhile_sublist isWs).subset h3

theorem pyLower_fix_mem_pyNormalizeL (c : Char) (s : List Char)
    (h : c ∈ pyNormalizeL s) : pyLower c = c := by
  unfold pyNormalizeL at h
  rcases mem_collapseWs c _ h with h | h
  · subst h; decide
  · rcases List.mem_map.mp h with ⟨d, hd, hdc⟩
    have hd2 := mem_stripChars d _ hd
    rcases List.mem_map.mp hd2 with ⟨e, _, hde⟩
    subst hdc
    by_cases hp : (!isWordChar d && !isWs d) = true
    · rw [subChar, if_pos hp]; decide
    · rw [subChar, if_neg hp]
      subst hde
      exact pyLower_idem e

theorem map_pyLower_pyNormalizeL (s : List Char) :
    (pyNormalizeL s).map pyLower = pyNormalizeL s := by
  have h : ∀ x ∈ pyNormalizeL s, pyLower x = x :=
    fun x hx => pyLower_fix_mem_pyNormalizeL x s hx
  exact (List.map_congr_left h).trans (List.map_id' _)

/-- Tokenizing a normalized text again does not change the tokens. -/
theorem words_pyNormalizeL_idem (s : List Char) :
    words (pyNormalizeL (pyNormalizeL s)) = words (pyNormalizeL s) := by
  rw [words_pyNormalizeL (pyNormalizeL s), map_pyLower_pyNormalizeL,
    splitW_sep_pyNormalizeL, words_pyNormalizeL]

/-- Replacing punctuation by spaces before normalizing does not change the
tokens. -/
theorem words_pyNormalizeL_subPunct (s : List Char) :
    words (pyNormalizeL (subPunct s)) = words (pyNormalizeL s) := by
  rw [words_pyNormalizeL (subPunct s), words_pyNormalizeL s]
  have hcomm : (subPunct s).map pyLower = (s.map pyLower).map subChar := by
    unfold subPunct
    rw [List.map_map, List.map_map]
    exact List.map_congr_left (fun a _ => (subChar_pyLower a).symm)
  rw [hcomm,
    splitW_map sep subChar subChar_eq_self_of_not_sep,
    show (fun c => sep (subChar c)) = sep from funext sep_subChar]

/-- Tokenization of all-whitespace text is empty. -/
theorem words_pyNormalizeL_all_ws (s : List Char) (h : ∀ c ∈ s, isWs c = true) :
    words (pyNormalizeL s) = [] := by
  rw [words_pyNormalizeL]
  apply splitW_all_sep
  intro c hc
  rcases List.mem_map.mp hc with ⟨d, hd, hdc⟩
  subst hdc
  exact sep_of_ws _ (by rw [isWs_pyLower]; exact h d hd)

/-- `_normalize(text)`: lowercase, strip, replace punctuation by spaces,
collapse whitespace. -/
def pyNormalize (text : String) : String := String.mk (pyNormalizeL text.data)

/-- The stop-word list of `_extract_keywords`. -/
def stop_words : List String :=
  ["the", "a", "an", "is", "are", "was", "were", "be", "been", "being",
   "have", "has", "had", "do", "does", "did", "will", "would", "could",
   "should", "may", "might", "shall", "can", "need", "dare", "ought",
   "used", "to", "of", "in", "for", "on", "with", "at", "by", "from",
   "as", "into", "through", "during", "before", "after", "above",
   "below", "between", "out", "off", "over", "under", "again",
   "further", "then", "once", "here", "there", "when", "where", "why",
   "how", "all", "both", "each", "few", "more", "most", "other",
   "some", "such", "no", "nor", "not", "only", "own", "same", "so",
   "than", "too", "very", "just", "because", "but", "and", "or",
   "if", "while", "about", "up", "it", "its", "my", "your", "his",
   "her", "their", "our", "this", "that", "these", "those", "what",
   "which", "who", "whom", "i", "you", "he", "she", "we", "they",
   "me", "him", "us", "them", "new", "get", "got", "like", "one"]

/-- `_extract_keywords(text)`: normalize, split on whitespace, keep tokens
longer than two characters that are not stop words.  The Python function
returns a set; we model it as the duplicate-free list of tokens in order of
first occurrence. -/
def extract_keywords (text : String) : List String :=
  (((words (pyNormalizeL text.data)).map (fun w => String.mk w)).filter
    (fun w => decide (2 < w.length) && decide (w ∉ stop_words))).dedup

/-! ## Data model and configuration (`config.py`) -/

/-- One scraped item.  `subreddit` models `item["extra"].get("subreddit", "")`,
the only key of the open `extra` mapping the analyzers read. -/
structure Item where
  source : String
  title : String
  url : String
  score : ℚ
  category : String
  subreddit : String
deriving DecidableEq, Repr

/-- `WEIGHTS` of `config.py`. -/
def W_cross_platform_presence : ℚ := 3
def W_velocity : ℚ := 5/2
def W_low_competition : ℚ := 2
def W_community_bridge : ℚ := 2

/-- `SUBREDDITS` of `config.py`: community groups and their subreddits. -/
def SUBREDDITS : List (String × List String) :=
  [("tech", ["technology", "programming", "machinelearning", "artificial",
             "webdev", "devops", "datascience", "ChatGPT"]),
   ("business", ["entrepreneur", "startups", "smallbusiness", "marketing",
                 "SideProject", "passive_income"]),
   ("finance", ["investing", "CryptoCurrency", "wallstreetbets",
                "personalfinance", "stocks"]),
   ("science", ["science", "Futurology", "space", "biotech"]),
   ("lifestyle", ["selfimprovement", "productivity", "getdisciplined",
                  "LifeProTips", "Fitness"]),
   ("creative", ["filmmaking", "videography", "youtubers", "NewTubers",
                 "ContentCreation"])]

/-- `INTEREST_TAGS` of `config.py`. -/
def INTEREST_TAGS : List String :=
  ["AI", "automation", "content creation", "passive income",
   "SaaS", "open source", "productivity", "creator tools",
   "machine learning", "side hustle", "no-code", "indie hacking"]

/-! ## Sorting helpers

Python's `list.sort(key=..., reverse=True)` is a stable sort by the key,
descending; we model it with `List.mergeSort` and a boolean comparison. -/

/-- Stable descending sort by a rational-valued key
(`sort(key=..., reverse=True)`). -/
def sortByQDesc {α : Type} (key : α → ℚ) (l : List α) : List α :=
  l.mergeSort (fun a b => decide (key b ≤ key a))

theorem sortByQDesc_pairwise {α : Type} (key : α → ℚ) (l : List α) :
    (sortByQDesc key l).Pairwise (fun a b => key b ≤ key a) := by
  have htrans : ∀ a b c : α, decide (key b ≤ key a) = true →
      decide (key c ≤ key b) = true → decide (key c ≤ key a) = true := by
    intro a b c h1 h2
    simp only [decide_eq_true_eq] at *
    exact le_trans h2 h1
  have htotal : ∀ a b : α,
      (decide (key b ≤ key a) || decide (key a ≤ key b)) = true := by
    intro a b
    simp only [Bool.or_eq_true, decide_eq_true_eq]
    exact le_total _ _
  have h := List.sorted_mergeSort htrans htotal l
  exact h.imp (fun hab => of_decide_eq_true hab)

theorem mem_sortByQDesc {α : Type} (key : α → ℚ) (l : List α) (a : α) :
    a ∈ sortByQDesc key l ↔ a ∈ l :=
  List.mem_mergeSort

/-- Stable descending sort by a lexicographic pair of rational keys
(`sort(key=lambda x: (k1 x, k2 x), reverse=True)`). -/
def sortByLexDesc {α : Type} (k1 k2 : α → ℚ) (l : List α) : List α :=
  l.mergeSort (fun a b =>
    decide (k1 b < k1 a ∨ (k1 b = k1 a ∧ k2 b ≤ k2 a)))

theorem sortByLexDesc_pairwise {α : Type} (k1 k2 : α → ℚ) (l : List α) :
    (sortByLexDesc k1 k2 l).Pairwise
      (fun a b => k1 b < k1 a ∨ (k1 b = k1 a ∧ k2 b ≤ k2 a)) := by
  have htrans : ∀ a b c : α,
      decide (k1 b < k1 a ∨ (k1 b = k1 a ∧ k2 b ≤ k2 a)) = true →
      decide (k1 c < k1 b ∨ (k1 c = k1 b ∧ k2 c ≤ k2 b)) = true →
      decide (k1 c < k1 a ∨ (k1 c = k1 a ∧ k2 c ≤ k2 a)) = true := by
    intro a b c h1 h2
    simp only [decide_eq_true_eq] at *
    rcases h1 with h1 | ⟨h1e, h1s⟩ <;> rcases h2 with h2 | ⟨h2e, h2s⟩
    · exact Or.inl (lt_trans h2 h1)
    · exact Or.inl (h2e ▸ h1)
    · exact Or.inl (h1e ▸ h2)
    · exact Or.inr ⟨h2e.trans h1e, le_trans h2s h1s⟩
  have htotal : ∀ a b : α,
      (decide (k1 b < k1 a ∨ (k1 b = k1 a ∧ k2 b ≤ k2 a)) ||
       decide (k1 a < k1 b ∨ (k1 a = k1 b ∧ k2 a ≤ k2 b))) = true := by
    intro a b
    simp only [Bool.or_eq_true, decide_eq_true_eq]
    rcases lt_trichotomy (k1 a) (k1 b) with h | h | h
    · exact Or.inr (Or.inl h)
    · rcases le_total (k2 b) (k2 a) with h2 | h2
      · exact Or.inl (Or.inr ⟨h.symm, h2⟩)
      · exact Or.inr (Or.inr ⟨h, h2⟩)
    · exact Or.inl (Or.inl h)
  have h := List.sorted_mergeSort htrans htotal l
  exact h.imp (fun hab => of_decide_eq_true hab)

theorem mem_sortByLexDesc {α : Type} (k1 k2 : α → ℚ) (l : List α) (a : α) :
    a ∈ sortByLexDesc k1 k2 l ↔ a ∈ l :=
  List.mem_mergeSort

/-- Python's `sorted` on strings (ascending, code-point order). -/
def sortStrings (l : List String) : List String :=
  l.mergeSort (fun a b => !decide (b < a))

theorem mem_sortStrings (l : List String) (a : String) :
    a ∈ sortStrings l ↔ a ∈ l :=
  List.mem_mergeSort

theorem length_sortStrings (l : List String) :
    (sortStrings l).length = l.length :=
  List.length_mergeSort l

/-! ## 1. Cross-platform gap detector (`detect_cross_platform_gaps`) -/

structure GapExample where
  title : String
  source : String
  url : String
  score : ℚ
deriving DecidableEq, Repr

structure Gap where
  keyword : String
  present_on : List String
  missing_from : List String
  mention_count : ℕ
  opportunity_score : ℚ
  examples : List GapExample
deriving DecidableEq, Repr

/-- Items whose source is not the video platform (Python:
`text_platforms = all_platforms - {"youtube"}`). -/
def textPlatformItems (items : List Item) : List Item :=
  items.filter (fun it => decide (it.source ≠ "youtube"))

/-- The discussion platforms present in the batch, in order of first
appearance. -/
def textSources (items : List Item) : List String :=
  ((textPlatformItems items).map (fun it => it.source)).dedup

/-- The per-platform mention counter `platform_keywords[src][kw]`: one
increment per item of that source whose extracted keyword set contains the
keyword. -/
def platformKwCount (items : List Item) (src kw : String) : ℕ :=
  (items.filter (fun it => decide (it.source = src))).countP
    (fun it => decide (kw ∈ extract_keywords it.title))

/-- `keyword_presence[kw]["total_count"]`: counts summed over all discussion
platforms. -/
def gapMentionCount (items : List Item) (kw : String) : ℕ :=
  ((textSources items).map (fun src => platformKwCount items src kw)).sum

/-- `keyword_presence[kw]["platforms"]`: the discussion platforms whose
keyword counter mentions `kw`. -/
def gapPlatforms (items : List Item) (kw : String) : List String :=
  (textSources items).filter (fun src => decide (0 < platformKwCount items src kw))

/-- `kw in youtube_keywords`. -/
def youtubeHasKw (items : List Item) (kw : String) : Bool :=
  decide (0 < platformKwCount items "youtube" kw)

/-- All keywords seen on discussion platforms (the keys of
`keyword_presence`). -/
def gapCandidates (items : List Item) : List String :=
  ((textPlatformItems items).map (fun it => extract_keywords it.title)).flatten.dedup

/-- Representative example items for a gap keyword (up to five). -/
def gapExamples (items : List Item) (kw : String) : List GapExample :=
  ((items.filter (fun it => decide (kw ∈ extract_keywords it.title))).map
    (fun it => GapExample.mk it.title it.source it.url it.score)).take 5

def mkGap (items : List Item) (kw : String) : Gap :=
  { keyword := kw
    present_on := sortStrings (gapPlatforms items kw)
    missing_from := ["youtube"]
    mention_count := gapMentionCount items kw
    opportunity_score :=
      pyRound 2 (gapMentionCount items kw * (gapPlatforms items kw).length *
        W_cross_platform_presence)
    examples := gapExamples items kw }

/-- `detect_cross_platform_gaps(items)`. -/
def detect_cross_platform_gaps (items : List Item) : List Gap :=
  (sortByQDesc (fun g => g.opportunity_score)
    (((gapCandidates items).filter (fun kw =>
        decide (2 ≤ (gapPlatforms items kw).length) &&
        !youtubeHasKw items kw &&
        decide (3 ≤ gapMentionCount items kw))).map
      (mkGap items))).take 50

/-! ## 2. Velocity scoring (`calculate_velocity`) -/

/-- One entry of the velocity ranking.  In the no-history fallback the
Python dict spreads the input item (key `score`) and has no
`combined_score`; in history mode the raw score is stored as `base_score`
and `combined_score` is present.  Both shapes share this record, with
`combined_score := none` in the fallback. -/
structure VelOut where
  title : String
  url : String
  source : String
  category : String
  score : ℚ
  velocity : ℚ
  velocity_label : String
  combined_score : Option ℚ
deriving DecidableEq, Repr

/-- `current_keywords[kw]`: one increment per item whose extracted keyword
set contains `kw`. -/
def currentKwCount (items : List Item) (kw : String) : ℕ :=
  items.countP (fun it => decide (kw ∈ extract_keywords it.title))

/-- `historical_keywords[kw]`: summed over every historical snapshot except
the first. -/
def histKwCount (history : List (List Item)) (kw : String) : ℕ :=
  ((history.drop 1).map (fun snap => currentKwCount snap kw)).sum

/-- `historical_avg[kw] = historical_keywords[kw] / max(len(history)-1, 1)`
(defaulting to `0` for unseen keywords). -/
def histAvg (history : List (List Item)) (kw : String) : ℚ :=
  (histKwCount history kw : ℚ) / (max (history.length - 1) 1 : ℕ)

/-- `keyword_velocity[kw]`. -/
def keywordVelocity (items : List Item) (history : List (List Item))
    (kw : String) : ℚ :=
  if 0 < histAvg history kw then
    (currentKwCount items kw - histAvg history kw) / histAvg history kw
  else
    currentKwCount items kw * 2

/-- `avg_velocity` of one item: the mean of its keywords' velocities. -/
def itemMeanVelocity (items : List Item) (history : List (List Item))
    (it : Item) : ℚ :=
  ((extract_keywords it.title).map (keywordVelocity items history)).sum /
    (extract_keywords it.title).length

/-- The velocity label thresholds. -/
def velocityLabel (v : ℚ) : String :=
  if 2 < v then "exploding"
  else if 1/2 < v then "rising"
  else if -(1/5) < v then "stable"
  else "declining"

/-- `calculate_velocity(items, history)`. -/
def calculate_velocity (items : List Item) (history : List (List Item)) :
    List VelOut :=
  if history.isEmpty then
    (sortByQDesc (fun v => v.velocity)
      (items.map (fun it =>
        VelOut.mk it.title it.url it.source it.category it.score
          (it.score * (3/2)) "new" none))).take 50
  else
    (sortByQDesc (fun v => v.velocity)
      ((items.filter (fun it => !(extract_keywords it.title).isEmpty)).map
        (fun it =>
          VelOut.mk it.title it.url it.source it.category it.score
            (pyRound 3 (itemMeanVelocity items history it))
            (velocityLabel (itemMeanVelocity items history it))
            (some (pyRound 2 (it.score * W_velocity *
              max (itemMeanVelocity items history it) (1/10))))))).take 50

/-! ## 3. Niche opportunity finder (`find_niche_opportunities`) -/

structure Niche where
  keyword : String
  demand_score : ℚ
  youtube_supply : ℕ
  niche_score : ℚ
  interest_match : Bool
  related_queries : List String
deriving DecidableEq, Repr

/-- `search_signals[kw]["demand_score"]`: summed scores of the Google
Trends items whose keyword set contains `kw`. -/
def demandScore (items : List Item) (kw : String) : ℚ :=
  (((items.filter (fun it => decide (it.source = "google_trends"))).filter
      (fun it => decide (kw ∈ extract_keywords it.title))).map
    (fun it => it.score)).sum

/-- `youtube_keywords[kw]` (the supply counter). -/
def youtubeSupply (items : List Item) (kw : String) : ℕ :=
  platformKwCount items "youtube" kw

/-- `search_signals[kw]["examples"]`: titles of contributing Google Trends
items. -/
def demandExamples (items : List Item) (kw : String) : List String :=
  (((items.filter (fun it => decide (it.source = "google_trends"))).filter
      (fun it => decide (kw ∈ extract_keywords it.title))).map
    (fun it => it.title))

/-- The keys of `search_signals`. -/
def nicheCandidates (items : List Item) : List String :=
  ((items.filter (fun it => decide (it.source = "google_trends"))).map
    (fun it => extract_keywords it.title)).flatten.dedup

/-- `niche_score` before the interest boost:
`demand / (supply + 1) * WEIGHTS["low_competition"]`. -/
def nicheRatio (items : List Item) (kw : String) : ℚ :=
  demandScore items kw / (youtubeSupply items kw + 1)

/-- The ×1.5 interest boost: applied iff the keyword occurs as a substring
of some normalized interest tag (Python `kw in _normalize(tag)`). -/
def interestBoost (tags : List String) (kw : String) : ℚ :=
  if tags.any (fun tag => decide (kw.data <:+: pyNormalizeL tag.data)) then 3/2 else 1

def mkNiche (tags : List String) (items : List Item) (kw : String) : Niche :=
  { keyword := kw
    demand_score := pyRound 2 (demandScore items kw)
    youtube_supply := youtubeSupply items kw
    niche_score :=
      pyRound 2 (nicheRatio items kw * W_low_competition * interestBoost tags kw)
    interest_match := decide (1 < interestBoost tags kw)
    related_queries := (demandExamples items kw).dedup.take 5 }

/-- `find_niche_opportunities(items)`, parametrized by the configured
interest tags (the Python function reads the global `INTEREST_TAGS`). -/
def find_niche_opportunities (tags : List String) (items : List Item) :
    List Niche :=
  (sortByQDesc (fun n => n.niche_score)
    ((nicheCandidates items).map (mkNiche tags items))).take 40

/-! ## 4. Bridge topic detector (`detect_bridge_topics`) -/

structure BridgeExample where
  title : String
  source : String
  category : String
deriving DecidableEq, Repr

structure Bridge where
  keyword : String
  communities : List String
  num_communities : ℕ
  bridge_score : ℚ
  total_mentions : ℕ
  examples : List BridgeExample
deriving DecidableEq, Repr

def lowerString (s : String) : String := String.mk (s.data.map pyLower)

/-- The community groups one item belongs to. -/
def itemCommunities (it : Item) : List String :=
  if it.source = "reddit" then
    (SUBREDDITS.filter (fun g =>
      decide (lowerString it.subreddit ∈ g.2.map lowerString))).map
      (fun g => g.1)
  else if it.source = "hackernews" then ["tech"]
  else if it.source = "google_trends" then ["mainstream"]
  else if it.source = "youtube" then ["content"]
  else if it.source = "twitter" then ["social"]
  else []

/-- `keyword_communities[kw]["items"]`: the items with at least one
community group whose keyword set contains `kw`. -/
def bridgeContributors (items : List Item) (kw : String) : List Item :=
  items.filter (fun it =>
    !(itemCommunities it).isEmpty && decide (kw ∈ extract_keywords it.title))

/-- `keyword_communities[kw]["communities"]`. -/
def bridgeGroups (items : List Item) (kw : String) : List String :=
  ((bridgeContributors items kw).map itemCommunities).flatten.dedup

/-- `keyword_communities[kw]["total_score"]`. -/
def bridgeTotalScore (items : List Item) (kw : String) : ℚ :=
  ((bridgeContributors items kw).map (fun it => it.score)).sum

/-- The keys of `keyword_communities`. -/
def bridgeCandidates (items : List Item) : List String :=
  ((items.filter (fun it => !(itemCommunities it).isEmpty)).map
    (fun it => extract_keywords it.title)).flatten.dedup

def mkBridge (items : List Item) (kw : String) : Bridge :=
  { keyword := kw
    communities := sortStrings (bridgeGroups items kw)
    num_communities := (bridgeGroups items kw).length
    bridge_score :=
      pyRound 2 ((bridgeGroups items kw).length * bridgeTotalScore items kw *
        W_community_bridge)
    total_mentions := (bridgeContributors items kw).length
    examples := ((bridgeContributors items kw).take 5).map
      (fun it => BridgeExample.mk it.title it.source it.category) }

/-- `detect_bridge_topics(items)`. -/
def detect_bridge_topics (items : List Item) : List Bridge :=
  (sortByQDesc (fun b => b.bridge_score)
    (((bridgeCandidates items).filter (fun kw =>
        decide (2 ≤ (bridgeGroups items kw).length))).map
      (mkBridge items))).take 40

/-! ## 5. Linguistic void detection (`detect_linguistic_voids`) -/

structure VoidExample where
  title : String
  source : String
  matching_keywords : List String
deriving DecidableEq, Repr

structure LinguisticVoid where
  concept_cluster : List String
  concept_hint : String
  cluster_size : ℕ
  discussion_count : ℕ
  void_score : ℚ
  examples : List VoidExample
deriving DecidableEq, Repr

/-- The co-occurrence counter `co_occur[a][b]`: the number of items whose
keyword set contains both of the two distinct keywords. -/
def coOccur (items : List Item) (a b : String) : ℕ :=
  if a = b then 0
  else items.countP (fun it =>
    decide (a ∈ extract_keywords it.title) && decide (b ∈ extract_keywords it.title))

/-- All keywords of the batch (the keys of `co_occur`). -/
def allKeywords (items : List Item) : List String :=
  (items.map (fun it => extract_keywords it.title)).flatten.dedup

/-- The ordered pairs `(kws[i], kws[j])`, `i < j`, of one sorted keyword
list. -/
def pairsOf : List String → List (String × String)
  | [] => []
  | x :: xs => xs.map (fun y => (x, y)) ++ pairsOf xs

/-- Candidate keyword pairs of the batch, first occurrence first. -/
def candidatePairs (items : List Item) : List (String × String) :=
  ((items.map (fun it =>
    pairsOf (sortStrings (extract_keywords it.title)))).flatten).dedup

/-- `strong_pairs`: pairs co-occurring at least three times, sorted by
count descending. -/
def strongPairs (items : List Item) : List (String × String) :=
  sortByQDesc (fun p => (coOccur items p.1 p.2 : ℚ))
    ((candidatePairs items).filter (fun p => decide (3 ≤ coOccur items p.1 p.2)))

/-- Expand a strong pair into a cluster: the two seeds plus every unused
keyword co-occurring at least twice with both. -/
def buildCluster (items : List Item) (used : List String) (k1 k2 : String) :
    List String :=
  sortStrings ((k1 :: k2 :: (allKeywords items).filter (fun c =>
    decide (c ∉ used) &&
    decide (2 ≤ coOccur items k1 c) &&
    decide (2 ≤ coOccur items k2 c))).dedup)

/-- The example items of a cluster: items whose keyword set overlaps the
cluster in at least two keywords. -/
def voidExamples (items : List Item) (cluster : List String) : List VoidExample :=
  (items.filter (fun it =>
    decide (2 ≤ ((extract_keywords it.title).filter
      (fun k => decide (k ∈ cluster))).length))).map
    (fun it => VoidExample.mk it.title it.source
      (sortStrings ((extract_keywords it.title).filter
        (fun k => decide (k ∈ cluster)))))

def mkVoid (items : List Item) (cluster : List String) (pairCount : ℕ) :
    LinguisticVoid :=
  { concept_cluster := cluster
    concept_hint := String.intercalate " + " (cluster.take 4)
    cluster_size := cluster.length
    discussion_count := (voidExamples items cluster).length
    void_score :=
      pyRound 2 (cluster.length * (voidExamples items cluster).length *
        pairCount * (1/2))
    examples := (voidExamples items cluster).take 5 }

/-- The greedy cluster-growing loop over the strong pairs. -/
def voidLoop (items : List Item) :
    List (String × String) → List String → List LinguisticVoid →
      List LinguisticVoid
  | [], _, acc => acc
  | (k1, k2) :: rest, used, acc =>
    if k1 ∈ used ∨ k2 ∈ used then voidLoop items rest used acc
    else
      let cluster := buildCluster items used k1 k2
      if 3 ≤ cluster.length then
        if (voidExamples items cluster).isEmpty then
          voidLoop items rest used acc
        else
          voidLoop items rest (used ++ cluster)
            (acc ++ [mkVoid items cluster (coOccur items k1 k2)])
      else voidLoop items rest used acc

/-- `detect_linguistic_voids(items)`. -/
def detect_linguistic_voids (items : List Item) : List LinguisticVoid :=
  (sortByQDesc (fun v => v.void_score)
    (voidLoop items ((strongPairs items).take 100) [] [])).take 20

/-! ## 6. Personal relevance scoring (`score_personal_relevance`) -/

structure ScoredItem where
  title : String
  url : String
  source : String
  category : String
  score : ℚ
  relevance : ℚ
  matching_tags : List String
deriving DecidableEq, Repr

/-- `interest_kws`: the union of the keyword sets of all interest tags. -/
def interestKeywords (tags : List String) : List String :=
  (tags.map extract_keywords).flatten.dedup

/-- `overlap = item_kws & interest_kws`. -/
def interestOverlap (tags : List String) (it : Item) : List String :=
  (extract_keywords it.title).filter (fun k => decide (k ∈ interestKeywords tags))

/-- `relevance = len(overlap) / max(len(interest_kws), 1)`. -/
def relevanceOf (tags : List String) (it : Item) : ℚ :=
  ((interestOverlap tags it).length : ℚ) / (max (interestKeywords tags).length 1 : ℕ)

def mkScored (tags : List String) (it : Item) : ScoredItem :=
  { title := it.title
    url := it.url
    source := it.source
    category := it.category
    score := it.score
    relevance := pyRound 3 (relevanceOf tags it)
    matching_tags := sortStrings (interestOverlap tags it) }

/-- `score_personal_relevance(items)`, parametrized by the configured
interest tags (the Python function reads the global `INTEREST_TAGS`). -/
def score_personal_relevance (tags : List String) (items : List Item) :
    List ScoredItem :=
  (sortByLexDesc (fun s => s.relevance) (fun s => s.score)
    ((items.filter (fun it => decide (0 < relevanceOf tags it))).map
      (mkScored tags))).take 30

/-! ## Analysis pipeline (`run_analysis`) -/

structure AnalysisResults where
  cross_platform_gaps : List Gap
  velocity_leaders : List VelOut
  niche_opportunities : List Niche
  bridge_topics : List Bridge
  linguistic_voids : List LinguisticVoid
  personal_relevance : List ScoredItem
deriving DecidableEq, Repr

/-- The analysis pipeline, parametrized by the six analyzers so that the
empty-batch short-circuit can be stated as independence from them: on an
empty batch it returns `none` ("nothing to analyze", not an error) before
any analyzer is consulted. -/
def runAnalysisWith
    (fGaps : List Item → List Gap)
    (fVel : List Item → List (List Item) → List VelOut)
    (fNiche : List Item → List Niche)
    (fBridge : List Item → List Bridge)
    (fVoid : List Item → List LinguisticVoid)
    (fRel : List Item → List ScoredItem)
    (items : List Item) (history : List (List Item)) :
    Option AnalysisResults :=
  if items.isEmpty then none
  else some
    { cross_platform_gaps := fGaps items
      velocity_leaders := fVel items history
      niche_opportunities := fNiche items
      bridge_topics := fBridge items
      linguistic_voids := fVoid items
      personal_relevance := fRel items }

/-- `run_analysis`, over an already-loaded batch and history. -/
def run_analysis (items : List Item) (history : List (List Item)) :
    Option AnalysisResults :=
  runAnalysisWith detect_cross_platform_gaps calculate_velocity
    (find_niche_opportunities INTEREST_TAGS) detect_bridge_topics
    detect_linguistic_voids (score_personal_relevance INTEREST_TAGS)
    items history

/-! ## Claim theorems -/

theorem take_length_le {α : Type} (n : ℕ) (l : List α) : (l.take n).length ≤ n := by
  rw [List.length_take]
  exact min_le_left _ _

/-- C5: with an empty current batch the pipeline returns the empty result
`none` — no exception, and the result does not depend on any of the six
analyzers (none of them is invoked). -/
theorem empty_batch_short_circuit (history : List (List Item))
    (f1 g1 : List Item → List Gap)
    (f2 g2 : List Item → List (List Item) → List VelOut)
    (f3 g3 : List Item → List Niche)
    (f4 g4 : List Item → List Bridge)
    (f5 g5 : List Item → List LinguisticVoid)
    (f6 g6 : List Item → List ScoredItem) :
    run_analysis [] history = none ∧
    runAnalysisWith f1 f2 f3 f4 f5 f6 [] history =
      runAnalysisWith g1 g2 g3 g4 g5 g6 [] history := by
  exact ⟨rfl, rfl⟩

/-- C1: every gap keyword was mentioned on at least two distinct discussion
platforms, has aggregate mention count at least three, and is absent from
the video platform's keyword set; its opportunity score is
`mention_count * platform_count * WEIGHTS["cross_platform_presence"]`, and
the output is sorted by opportunity score descending and has at most 50
entries. -/
theorem gap_qualification (items : List Item) :
    (∀ g ∈ detect_cross_platform_gaps items,
      2 ≤ (gapPlatforms items g.keyword).length ∧
      3 ≤ gapMentionCount items g.keyword ∧
      youtubeHasKw items g.keyword = false ∧
      g.mention_count = gapMentionCount items g.keyword ∧
      g.opportunity_score =
        gapMentionCount items g.keyword * (gapPlatforms items g.keyword).length *
          W_cross_platform_presence) ∧
    (detect_cross_platform_gaps items).Pairwise
      (fun a b => b.opportunity_score ≤ a.opportunity_score) ∧
    (detect_cross_platform_gaps items).length ≤ 50 := by
  refine ⟨?_, ?_, ?_⟩
  · intro g hg
    unfold detect_cross_platform_gaps at hg
    have h1 := List.mem_of_mem_take hg
    have h2 := (mem_sortByQDesc _ _ _).mp h1
    obtain ⟨kw, hkwf, hmk⟩ := List.mem_map.mp h2
    obtain ⟨hkwc, hcond⟩ := List.mem_filter.mp hkwf
    simp only [Bool.and_eq_true, decide_eq_true_eq, Bool.not_eq_true'] at hcond
    obtain ⟨⟨hplat, hyt⟩, hcnt⟩ := hcond
    subst hmk
    have hkwe : (mkGap items kw).keyword = kw := rfl
    rw [hkwe]
    refine ⟨hplat, hcnt, hyt, rfl, ?_⟩
    show pyRound 2 (gapMentionCount items kw * (gapPlatforms items kw).length *
      W_cross_platform_presence) = _
    have hcast : ((gapMentionCount items kw : ℚ) *
        ((gapPlatforms items kw).length : ℚ) * W_cross_platform_presence) =
        ((gapMentionCount items kw * (gapPlatforms items kw).length * 3 : ℕ) : ℚ) := by
      unfold W_cross_platform_presence
      push_cast
      ring
    rw [hcast, pyRound_natCast]
  · exact List.Pairwise.sublist (List.take_sublist _ _) (sortByQDesc_pairwise _ _)
  · exact take_length_le _ _

def gapItems : List Item :=
  [Item.mk "reddit" "deepfake" "u1" 1 "" "",
   Item.mk "reddit" "deepfake" "u2" 2 "" "",
   Item.mk "hackernews" "deepfake" "u3" 3 "" ""]

def anyGap : Gap := Gap.mk "" [] [] 0 0 []

def gapW : Gap := (detect_cross_platform_gaps gapItems).headD anyGap

set_option maxRecDepth 4000

theorem gap_qualification_witness :
    2 ≤ (gapPlatforms gapItems gapW.keyword).length ∧
    3 ≤ gapMentionCount gapItems gapW.keyword ∧
    youtubeHasKw gapItems gapW.keyword = false ∧
    gapW.mention_count = gapMentionCount gapItems gapW.keyword ∧
    gapW.opportunity_score =
      gapMentionCount gapItems gapW.keyword *
        (gapPlatforms gapItems gapW.keyword).length *
        W_cross_platform_presence :=
  (gap_qualification gapItems).1 gapW (by with_unfolding_all decide)

/-- C10 (implicit): every example item attached to a gap keyword has a
source different from the video platform, because example selection tests
keyword membership and a qualifying keyword is absent from the video
platform's keyword set. -/
theorem gap_examples_not_youtube (items : List Item) (g : Gap) (e : GapExample)
    (hg : g ∈ detect_cross_platform_gaps items) (he : e ∈ g.examples) :
    e.source ≠ "youtube" := by
  unfold detect_cross_platform_gaps at hg
  have h1 := List.mem_of_mem_take hg
  have h2 := (mem_sortByQDesc _ _ _).mp h1
  obtain ⟨kw, hkwf, hmk⟩ := List.mem_map.mp h2
  obtain ⟨hkwc, hcond⟩ := List.mem_filter.mp hkwf
  simp only [Bool.and_eq_true, decide_eq_true_eq, Bool.not_eq_true'] at hcond
  obtain ⟨⟨hplat, hyt⟩, hcnt⟩ := hcond
  subst hmk
  have hex : e ∈ gapExamples items kw := he
  unfold gapExamples at hex
  have hex2 := List.mem_of_mem_take hex
  obtain ⟨it, hit, hite⟩ := List.mem_map.mp hex2
  obtain ⟨hitm, hitkw⟩ := List.mem_filter.mp hit
  simp only [decide_eq_true_eq] at hitkw
  intro hsrc
  have hsrc2 : it.source = "youtube" := by
    rw [← hite] at hsrc
    exact hsrc
  have hpos : 0 < platformKwCount items "youtube" kw := by
    unfold platformKwCount
    rw [List.countP_pos_iff]
    exact ⟨it, List.mem_filter.mpr ⟨hitm, by simp [hsrc2]⟩, by simp [hitkw]⟩
  unfold youtubeHasKw at hyt
  simp only [decide_eq_false_iff_not] at hyt
  exact hyt hpos

def anyGapExample : GapExample := GapExample.mk "" "" "" 0

def gapExampleW : GapExample := gapW.examples.headD anyGapExample

theorem gap_examples_not_youtube_witness : gapExampleW.source ≠ "youtube" :=
  gap_examples_not_youtube gapItems gapW gapExampleW
    (by with_unfolding_all decide) (by with_unfolding_all decide)

/-- C2 (amended): with empty history every output item's velocity is
exactly `score * 1.5` (the code stores the product unrounded) with label
`"new"`, ranked by velocity descending, at most 50 entries. -/
theorem velocity_fallback (items : List Item) :
    (∀ v ∈ calculate_velocity items [],
      v.velocity = v.score * (3/2) ∧ v.velocity_label = "new") ∧
    (calculate_velocity items []).Pairwise
      (fun a b => b.velocity ≤ a.velocity) ∧
    (calculate_velocity items []).length ≤ 50 := by
  refine ⟨?_, ?_, ?_⟩
  · intro v hv
    unfold calculate_velocity at hv
    simp only [List.isEmpty_nil, if_true] at hv
    have h1 := List.mem_of_mem_take hv
    have h2 := (mem_sortByQDesc _ _ _).mp h1
    obtain ⟨it, _, hmk⟩ := List.mem_map.mp h2
    subst hmk
    exact ⟨rfl, rfl⟩
  · unfold calculate_velocity
    simp only [List.isEmpty_nil, if_true]
    exact List.Pairwise.sublist (List.take_sublist _ _) (sortByQDesc_pairwise _ _)
  · unfold calculate_velocity
    simp only [List.isEmpty_nil, if_true]
    exact take_length_le _ _

def velFallbackItem : Item := Item.mk "hackernews" "xyzzy" "u" (1/64) "" ""

def anyVelOut : VelOut := VelOut.mk "" "" "" "" 0 0 "" none

def velFallbackW : VelOut :=
  (calculate_velocity [velFallbackItem] []).headD anyVelOut

theorem velocity_fallback_witness :
    velFallbackW.velocity = velFallbackW.score * (3/2) ∧
    velFallbackW.velocity_label = "new" :=
  (velocity_fallback [velFallbackItem]).1 velFallbackW
    (by with_unfolding_all decide)

/-- C2 counterexample: the claim as frozen says the fallback velocity is
`round(score * 1.5, 3)`, but the code stores `score * 1.5` unrounded: with
score `1/64` the output velocity is `3/128 = 0.0234375`, while rounding it
to three decimal places gives `0.023`. -/
theorem velocity_fallback_round_cex :
    (calculate_velocity [velFallbackItem] []).map (fun v => v.velocity) =
      [3/128] ∧
    pyRound 3 ((1/64 : ℚ) * (3/2)) = 23/1000 ∧ (3/128 : ℚ) ≠ 23/1000 := by
  with_unfolding_all decide

/-- C3 (amended): with non-empty history, a keyword's velocity is
`(current - avg) / avg` for positive historical average and
`current * 2.0` otherwise; every ranked item comes from an input item with
a non-empty keyword set, its stored velocity is the mean of its keywords'
velocities rounded to three decimal places (the code rounds the stored
field), and an item whose mean velocity exceeds 2.0 is labelled
"exploding"; a keyword with historical average 1.0 and current count 5 has
velocity 4.0. -/
theorem velocity_history (items : List Item) (history : List (List Item))
    (hne : history ≠ []) :
    (∀ kw, 0 < histAvg history kw →
      keywordVelocity items history kw =
        (currentKwCount items kw - histAvg history kw) / histAvg history kw) ∧
    (∀ kw, histAvg history kw = 0 →
      keywordVelocity items history kw = currentKwCount items kw * 2) ∧
    (∀ v ∈ calculate_velocity items history, ∃ it ∈ items,
      extract_keywords it.title ≠ [] ∧ v.title = it.title ∧
      v.velocity = pyRound 3 (itemMeanVelocity items history it) ∧
      (2 < itemMeanVelocity items history it → v.velocity_label = "exploding")) ∧
    (∀ kw, histAvg history kw = 1 → currentKwCount items kw = 5 →
      keywordVelocity items history kw = 4) := by
  refine ⟨?_, ?_, ?_, ?_⟩
  · intro kw h
    unfold keywordVelocity
    rw [if_pos h]
  · intro kw h
    unfold keywordVelocity
    rw [if_neg (by rw [h]; exact lt_irrefl 0)]
  · intro v hv
    unfold calculate_velocity at hv
    have hf : history.isEmpty = false := by
      cases history with
      | nil => exact absurd rfl hne
      | cons x xs => rfl
    rw [hf] at hv
    simp only [Bool.false_eq_true, if_false] at hv
    have h1 := List.mem_of_mem_take hv
    have h2 := (mem_sortByQDesc _ _ _).mp h1
    obtain ⟨it, hitf, hmk⟩ := List.mem_map.mp h2
    obtain ⟨hitm, hcond⟩ := List.mem_filter.mp hitf
    refine ⟨it, hitm, ?_, ?_, ?_, ?_⟩
    · intro hempty
      rw [hempty] at hcond
      simp at hcond
    · rw [← hmk]
    · rw [← hmk]
    · intro hmean
      rw [← hmk]
      show velocityLabel (itemMeanVelocity items history it) = "exploding"
      unfold velocityLabel
      rw [if_pos hmean]
  · intro kw h1 h5
    unfold keywordVelocity
    rw [if_pos (by rw [h1]; exact one_pos), h1, h5]
    norm_num

def velHistItem : Item := Item.mk "reddit" "aaa bbb ccc" "u" 0 "" ""

def velHistB : List Item := [velHistItem]

def velHistH : List (List Item) := [[], [Item.mk "reddit" "aaa" "u" 0 "" ""]]

/-- C3 counterexample: the claim as frozen says an item's velocity is the
mean of its keywords' velocities, but the code stores the mean rounded to
three decimal places: a mean of `4/3` is stored as `1.333`. -/
theorem velocity_history_round_cex :
    (calculate_velocity velHistB velHistH).map (fun v => v.velocity) =
      [1333/1000] ∧
    itemMeanVelocity velHistB velHistH velHistItem = 4/3 ∧
    (1333/1000 : ℚ) ≠ 4/3 := by
  with_unfolding_all decide

def velWitItem : Item := Item.mk "reddit" "gadgetx" "u" 0 "" ""

def velWitItems : List Item :=
  [velWitItem, velWitItem, velWitItem, velWitItem, velWitItem]

def velWitHist : List (List Item) := [[], [velWitItem]]

theorem velocity_history_witness :
    keywordVelocity velWitItems velWitHist "gadgetx" = 4 :=
  (velocity_history velWitItems velWitHist (by with_unfolding_all decide)).2.2.2 "gadgetx"
    (by with_unfolding_all decide) (by with_unfolding_all decide)

/-- C4 (amended): for batches of non-negatively scored items, every niche
result has a non-negative niche score and supply count; the stored niche
score is `demand / (supply + 1) * WEIGHTS["low_competition"]` times the
1.5 interest boost (applied exactly when the keyword is a substring of
some normalized interest tag), rounded to two decimal places (the code
rounds the stored field); with demand 10 and supply 0 the pre-weight,
pre-boost ratio is 10. -/
theorem niche_nonneg_formula (tags : List String) (items : List Item)
    (hscores : ∀ it ∈ items, 0 ≤ it.score) :
    (∀ n ∈ find_niche_opportunities tags items,
      0 ≤ n.niche_score ∧
      0 ≤ n.youtube_supply ∧
      n.niche_score = pyRound 2 (nicheRatio items n.keyword *
        W_low_competition * interestBoost tags n.keyword) ∧
      (n.interest_match = true ↔
        ∃ tag ∈ tags, n.keyword.data <:+: pyNormalizeL tag.data)) ∧
    (∀ kw, demandScore items kw = 10 → youtubeSupply items kw = 0 →
      nicheRatio items kw = 10) := by
  constructor
  · intro n hn
    unfold find_niche_opportunities at hn
    have h1 := List.mem_of_mem_take hn
    have h2 := (mem_sortByQDesc _ _ _).mp h1
    obtain ⟨kw, _, hmk⟩ := List.mem_map.mp h2
    subst hmk
    have hkw : (mkNiche tags items kw).keyword = kw := rfl
    rw [hkw]
    have hdemand : 0 ≤ demandScore items kw := by
      unfold demandScore
      apply List.sum_nonneg
      intro x hx
      obtain ⟨it, hit, hxe⟩ := List.mem_map.mp hx
      have hit2 := List.mem_filter.mp hit
      have hit3 := List.mem_filter.mp hit2.1
      rw [← hxe]
      exact hscores it hit3.1
    have hboost : 0 ≤ interestBoost tags kw := by
      unfold interestBoost
      split <;> norm_num
    have hratio : 0 ≤ nicheRatio items kw := by
      unfold nicheRatio
      apply div_nonneg hdemand
      positivity
    refine ⟨?_, Nat.zero_le _, rfl, ?_⟩
    · show 0 ≤ pyRound 2 (nicheRatio items kw * W_low_competition *
        interestBoost tags kw)
      apply pyRound_nonneg
      apply mul_nonneg (mul_nonneg hratio (by norm_num [W_low_competition])) hboost
    · show decide (1 < interestBoost tags kw) = true ↔ _
      unfold interestBoost
      by_cases hany : tags.any (fun tag => decide (kw.data <:+: pyNormalizeL tag.data)) = true
      · rw [if_pos hany]
        simp only [decide_eq_true_eq]
        constructor
        · intro _
          obtain ⟨tag, htag, hinf⟩ := List.any_eq_true.mp hany
          exact ⟨tag, htag, of_decide_eq_true hinf⟩
        · intro _
          norm_num
      · rw [if_neg hany]
        simp only [decide_eq_true_eq]
        constructor
        · intro h
          exact absurd h (by norm_num)
        · intro ⟨tag, htag, hinf⟩
          exact absurd (List.any_eq_true.mpr ⟨tag, htag, decide_eq_true hinf⟩) hany
  · intro kw h1 h2
    unfold nicheRatio
    rw [h1, h2]
    norm_num

def nicheItems : List Item := [Item.mk "google_trends" "widget" "u" 10 "" ""]

def anyNiche : Niche := Niche.mk "" 0 0 0 false []

def nicheW : Niche := (find_niche_opportunities [] nicheItems).headD anyNiche

theorem niche_nonneg_formula_witness :
    (0 ≤ nicheW.niche_score ∧ 0 ≤ nicheW.youtube_supply) ∧
    nicheRatio nicheItems "widget" = 10 :=
  ⟨⟨((niche_nonneg_formula [] nicheItems (by with_unfolding_all decide)).1
      nicheW (by with_unfolding_all decide)).1,
    ((niche_nonneg_formula [] nicheItems (by with_unfolding_all decide)).1
      nicheW (by with_unfolding_all decide)).2.1⟩,
   (niche_nonneg_formula [] nicheItems (by with_unfolding_all decide)).2
     "widget" (by with_unfolding_all decide) (by with_unfolding_all decide)⟩

def nicheCexItems : List Item :=
  [Item.mk "google_trends" "abc" "u" 1 "" "",
   Item.mk "youtube" "abc" "u" 0 "" "",
   Item.mk "youtube" "abc" "u" 0 "" ""]

/-- C4 counterexample: the claim as frozen says the niche score equals the
demand/supply formula exactly, but the code stores it rounded to two
decimal places: demand 1 with supply 2 gives `1/3 * 2 = 2/3`, stored as
`0.67`. -/
theorem niche_round_cex :
    (find_niche_opportunities [] nicheCexItems).map (fun n => n.niche_score) =
      [67/100] ∧
    nicheRatio nicheCexItems "abc" * W_low_competition *
      interestBoost [] "abc" = 2/3 ∧
    (67/100 : ℚ) ≠ 2/3 := by
  with_unfolding_all decide

/-- C7 (amended): every bridge result spans at least two community groups,
its `num_communities` equals the length of its `communities` list, and its
stored bridge score is `group_count * total_score * 
WEIGHTS["community_bridge"]` rounded to two decimal places (the code
rounds the stored field). -/
theorem bridge_cardinality (items : List Item) :
    ∀ b ∈ detect_bridge_topics items,
      2 ≤ b.num_communities ∧
      b.num_communities = b.communities.length ∧
      b.bridge_score = pyRound 2 (b.num_communities *
        bridgeTotalScore items b.keyword * W_community_bridge) := by
  intro b hb
  unfold detect_bridge_topics at hb
  have h1 := List.mem_of_mem_take hb
  have h2 := (mem_sortByQDesc _ _ _).mp h1
  obtain ⟨kw, hkwf, hmk⟩ := List.mem_map.mp h2
  obtain ⟨_, hcond⟩ := List.mem_filter.mp hkwf
  simp only [decide_eq_true_eq] at hcond
  subst hmk
  refine ⟨hcond, ?_, rfl⟩
  show (bridgeGroups items kw).length = (sortStrings (bridgeGroups items kw)).length
  rw [length_sortStrings]

def bridgeCexItems : List Item :=
  [Item.mk "hackernews" "abc" "u" (1/500) "" "",
   Item.mk "google_trends" "abc" "u" 0 "" ""]

def anyBridge : Bridge := Bridge.mk "" [] 0 0 0 []

def bridgeW : Bridge := (detect_bridge_topics bridgeCexItems).headD anyBridge

theorem bridge_cardinality_witness :
    2 ≤ bridgeW.num_communities ∧
    bridgeW.num_communities = bridgeW.communities.length ∧
    bridgeW.bridge_score = pyRound 2 (bridgeW.num_communities *
      bridgeTotalScore bridgeCexItems bridgeW.keyword * W_community_bridge) :=
  bridge_cardinality bridgeCexItems bridgeW (by with_unfolding_all decide)

/-- C7 counterexample: the claim as frozen says the bridge score equals
`group_count * score_sum * weight` exactly, but the code stores it rounded
to two decimal places: two groups with total score `1/500` give
`2 * 1/500 * 2 = 0.008`, stored as `0.01`. -/
theorem bridge_round_cex :
    (detect_bridge_topics bridgeCexItems).map (fun b => b.bridge_score) =
      [1/100] ∧
    ((bridgeGroups bridgeCexItems "abc").length : ℚ) *
      bridgeTotalScore bridgeCexItems "abc" * W_community_bridge = 1/125 ∧
    (1/100 : ℚ) ≠ 1/125 := by
  with_unfolding_all decide

/-- Every keyword of a freshly built cluster is unused: the two seeds are
checked by the loop guard and the candidates are filtered. -/
theorem buildCluster_not_used (items : List Item) (used : List String)
    (k1 k2 : String) (hk : ¬ (k1 ∈ used ∨ k2 ∈ used)) :
    ∀ kw ∈ buildCluster items used k1 k2, kw ∉ used := by
  intro kw hkw
  have h1 := (mem_sortStrings _ _).mp hkw
  have h2 := List.mem_dedup.mp h1
  rcases List.mem_cons.mp h2 with h | h
  · subst h; exact fun hc => hk (Or.inl hc)
  · rcases List.mem_cons.mp h with h | h
    · subst h; exact fun hc => hk (Or.inr hc)
    · obtain ⟨_, hcond⟩ := List.mem_filter.mp h
      simp only [Bool.and_eq_true, decide_eq_true_eq] at hcond
      exact hcond.1.1

/-- Greedy invariant of the void loop: if every accepted cluster so far is
inside the `used` set and the accumulated voids are pairwise disjoint,
then the final voids are pairwise disjoint. -/
theorem voidLoop_disjoint (items : List Item) :
    ∀ (pairs : List (String × String)) (used : List String)
      (acc : List LinguisticVoid),
      (∀ v ∈ acc, ∀ kw ∈ v.concept_cluster, kw ∈ used) →
      acc.Pairwise (fun v1 v2 =>
        ∀ kw ∈ v1.concept_cluster, kw ∉ v2.concept_cluster) →
      (voidLoop items pairs used acc).Pairwise (fun v1 v2 =>
        ∀ kw ∈ v1.concept_cluster, kw ∉ v2.concept_cluster) := by
  intro pairs
  induction pairs with
  | nil => intro used acc _ hpw; exact hpw
  | cons p rest ih =>
    intro used acc hsub hpw
    obtain ⟨k1, k2⟩ := p
    show (voidLoop items ((k1, k2) :: rest) used acc).Pairwise _
    rw [voidLoop]
    by_cases hused : k1 ∈ used ∨ k2 ∈ used
    · rw [if_pos hused]
      exact ih used acc hsub hpw
    · rw [if_neg hused]
      by_cases hsize : 3 ≤ (buildCluster items used k1 k2).length
      · rw [if_pos hsize]
        by_cases hex : (voidExamples items (buildCluster items used k1 k2)).isEmpty = true
        · rw [if_pos hex]
          exact ih used acc hsub hpw
        · rw [if_neg hex]
          apply ih
          · intro v hv kw hkw
            rcases List.mem_append.mp hv with h | h
            · exact List.mem_append_left _ (hsub v h kw hkw)
            · have hv2 : v = mkVoid items (buildCluster items used k1 k2)
                  (coOccur items k1 k2) := by simpa using h
              subst hv2
              exact List.mem_append_right _ hkw
          · rw [List.pairwise_append]
            refine ⟨hpw, List.pairwise_singleton _ _, ?_⟩
            intro a ha b hb kw hkwa
            have hb2 : b = mkVoid items (buildCluster items used k1 k2)
                (coOccur items k1 k2) := by simpa using hb
            subst hb2
            intro hkwb
            exact buildCluster_not_used items used k1 k2 hused kw hkwb
              (hsub a ha kw hkwa)
      · rw [if_neg hsize]
        exact ih used acc hsub hpw

/-- C6: across all voids returned in one run, no keyword appears in two
different concept clusters — the accepted clusters are pairwise disjoint
(greedy exclusivity). -/
theorem void_clusters_disjoint (items : List Item) :
    (detect_linguistic_voids items).Pairwise (fun v1 v2 =>
      ∀ kw ∈ v1.concept_cluster, kw ∉ v2.concept_cluster) := by
  unfold detect_linguistic_voids
  have hloop := voidLoop_disjoint items ((strongPairs items).take 100) [] []
    (by intro v hv; simp at hv) List.Pairwise.nil
  have hsymm : ∀ {x y : LinguisticVoid},
      (∀ kw ∈ x.concept_cluster, kw ∉ y.concept_cluster) →
      (∀ kw ∈ y.concept_cluster, kw ∉ x.concept_cluster) := by
    intro x y h kw hky hkx
    exact h kw hkx hky
  have hperm : List.Perm (voidLoop items ((strongPairs items).take 100) [] [])
      (sortByQDesc (fun v => v.void_score)
        (voidLoop items ((strongPairs items).take 100) [] [])) :=
    (List.mergeSort_perm _ _).symm
  exact List.Pairwise.sublist (List.take_sublist _ _)
    (hloop.perm hperm hsymm)

/-- C9 (amended): every relevance result comes from an input item with a
positive keyword overlap with the interest vocabulary (zero-overlap items
are dropped); its stored relevance is
`|item_kws ∩ interest_kws| / max(|interest_kws|, 1)` rounded to three
decimal places (the code rounds the stored field and sorts by the rounded
value); the output is sorted by `(relevance, score)` descending with
relevance as the primary key, and has at most 30 entries. -/
theorem relevance_spec (tags : List String) (items : List Item) :
    (∀ s ∈ score_personal_relevance tags items, ∃ it ∈ items,
      s.title = it.title ∧ s.score = it.score ∧
      s.relevance = pyRound 3 (relevanceOf tags it) ∧
      0 < relevanceOf tags it) ∧
    (score_personal_relevance tags items).Pairwise
      (fun a b => b.relevance < a.relevance ∨
        (b.relevance = a.relevance ∧ b.score ≤ a.score)) ∧
    (score_personal_relevance tags items).length ≤ 30 := by
  refine ⟨?_, ?_, ?_⟩
  · intro s hs
    unfold score_personal_relevance at hs
    have h1 := List.mem_of_mem_take hs
    have h2 := (mem_sortByLexDesc _ _ _ _).mp h1
    obtain ⟨it, hitf, hmk⟩ := List.mem_map.mp h2
    obtain ⟨hitm, hcond⟩ := List.mem_filter.mp hitf
    simp only [decide_eq_true_eq] at hcond
    exact ⟨it, hitm, by rw [← hmk]; rfl, by rw [← hmk]; rfl,
      by rw [← hmk]; rfl, hcond⟩
  · exact List.Pairwise.sublist (List.take_sublist _ _)
      (sortByLexDesc_pairwise _ _ _)
  · exact take_length_le _ _

def relCexTags : List String := ["aaa bbb ccc"]

def relCexItem : Item := Item.mk "reddit" "aaa xyz" "u" 0 "" ""

def anyScored : ScoredItem := ScoredItem.mk "" "" "" "" 0 0 []

def relW : ScoredItem :=
  (score_personal_relevance relCexTags [relCexItem]).headD anyScored

theorem relevance_spec_witness :
    relW.relevance = pyRound 3 (relevanceOf relCexTags relCexItem) ∧
    0 < relevanceOf relCexTags relCexItem := by
  obtain ⟨it, hit, _, _, hrel, hpos⟩ :=
    (relevance_spec relCexTags [relCexItem]).1 relW (by with_unfolding_all decide)
  have hit2 : it = relCexItem := by simpa using hit
  subst hit2
  exact ⟨hrel, hpos⟩

/-- C9 counterexample: the claim as frozen says each item's relevance
equals `|overlap| / max(|interest|, 1)` exactly, but the code stores it
rounded to three decimal places: an overlap of 1 out of 3 interest
keywords gives `1/3`, stored as `0.333`. -/
theorem relevance_round_cex :
    (score_personal_relevance relCexTags [relCexItem]).map
      (fun s => s.relevance) = [333/1000] ∧
    relevanceOf relCexTags relCexItem = 1/3 ∧
    (333/1000 : ℚ) ≠ 1/3 := by
  with_unfolding_all decide

/-- C8: keyword extraction is deterministic and invariant under
normalization: it gives the same result on the normalized text, on any
text with the same lower-casing (case variation), on the text with
punctuation already replaced by spaces, and on any text with the same
normalization; extraction of whitespace-only (or empty) text is empty. -/
theorem extract_normalization_invariance (t t' : String) :
    extract_keywords (pyNormalize t) = extract_keywords t ∧
    (t.data.map pyLower = t'.data.map pyLower →
      extract_keywords t = extract_keywords t') ∧
    extract_keywords (String.mk (subPunct t.data)) = extract_keywords t ∧
    (pyNormalize t = pyNormalize t' → extract_keywords t = extract_keywords t') ∧
    (t.data.all isWs = true → extract_keywords t = []) := by
  refine ⟨?_, ?_, ?_, ?_, ?_⟩
  · show (((words (pyNormalizeL (pyNormalize t).data)).map
      (fun w => String.mk w)).filter _).dedup = _
    have hdata : (pyNormalize t).data = pyNormalizeL t.data := rfl
    rw [hdata, words_pyNormalizeL_idem]
    rfl
  · intro h
    show (((words (pyNormalizeL t.data)).map (fun w => String.mk w)).filter _).dedup = _
    rw [words_pyNormalizeL, h, ← words_pyNormalizeL]
    rfl
  · show (((words (pyNormalizeL (String.mk (subPunct t.data)).data)).map
      (fun w => String.mk w)).filter _).dedup = _
    have hdata : (String.mk (subPunct t.data)).data = subPunct t.data := rfl
    rw [hdata, words_pyNormalizeL_subPunct]
    rfl
  · intro h
    have hdata : pyNormalizeL t.data = pyNormalizeL t'.data :=
      congrArg String.data h
    show (((words (pyNormalizeL t.data)).map (fun w => String.mk w)).filter _).dedup = _
    rw [hdata]
    rfl
  · intro h
    show (((words (pyNormalizeL t.data)).map (fun w => String.mk w)).filter _).dedup = _
    rw [words_pyNormalizeL_all_ws t.data (fun c hc => List.all_eq_true.mp h c hc)]
    rfl

theorem extract_normalization_invariance_witness :
    extract_keywords "Deepfake AI!" = extract_keywords "DEEPFAKE ai!" ∧
    extract_keywords " \t " = [] :=
  ⟨(extract_normalization_invariance "Deepfake AI!" "DEEPFAKE ai!").2.1
     (by with_unfolding_all decide),
   (extract_normalization_invariance " \t " " \t ").2.2.2.2
     (by with_unfolding_all decide)⟩
